import Mathlib

/-!
Shallow embedding of the tree subsystem of the Tiny-DataStructure-Lib C
repository: the generic binary tree (`src/ds_btree.c`) and the binary
search tree (`src/ds_bst.c`).

Modelling conventions:
* a `ds_btree_node_t *` / `ds_bst_node_t *` is a `BNode α`; the `NULL`
  pointer is `BNode.nil`, and a node with payload `d` and child pointers
  `l`, `r` is `BNode.node d l r` (payload pointers are always non-NULL in
  stored nodes, so the payload is a plain `α`);
* a possibly-NULL container pointer (`ds_btree_t *`, `ds_bst_t *`) is an
  `Option (Btree α)` / `Option (Bst α)`; `none` is the NULL pointer;
* a `parent` node pointer that the C caller obtained from inside the tree
  is identified by the path (`Path`) from the root to that node; a NULL
  parent pointer is `none : Option Path`.  A path that does not resolve to
  a node corresponds to a pointer outside the tree, which violates the
  documented contract of the C API ("Target node in the tree"); for
  totality those calls are modelled as failures that change nothing;
* `size_t` is a natural number computed modulo `2 ^ 64`; `size ++`,
  `size --` and `size += k` are `szSucc`, `szPred` and `szAdd`;
* a visitor / destructor callback is modelled by returning the list of
  payloads it is invoked on, in invocation order;
* `malloc` failure paths (`DS_ERR_MEM`) are not modelled: allocation is
  assumed to succeed.
-/

namespace TinyDS

/-- Unified status codes from `ds_common.h` (the `DS_ERR_MEM` constructor is
kept for completeness even though allocation failure is not modelled). -/
inductive DsStatus where
  | DS_OK
  | DS_ERR_NULL
  | DS_ERR_ARG
  | DS_ERR_BOUNDS
  | DS_ERR_EMPTY
  | DS_ERR_EXIST
  | DS_ERR_NOT_FOUND
  | DS_ERR_MEM
deriving DecidableEq, Repr

export DsStatus (DS_OK DS_ERR_NULL DS_ERR_ARG DS_ERR_EXIST DS_ERR_NOT_FOUND)

/-- A binary tree node pointer: `NULL` or a node with a payload and two
child pointers (`struct ds_btree_node` / `struct ds_bst_node`). -/
inductive BNode (α : Type) where
  | nil : BNode α
  | node (data : α) (left : BNode α) (right : BNode α) : BNode α
deriving DecidableEq, Repr

namespace BNode

variable {α : Type}

/-- Number of nodes reachable from this pointer. -/
def count : BNode α → Nat
  | .nil => 0
  | .node _ l r => 1 + l.count + r.count

/-- Recursive pre-order visitation sequence (`preorder_node`). -/
def preorder : BNode α → List α
  | .nil => []
  | .node d l r => d :: (l.preorder ++ r.preorder)

/-- Recursive in-order visitation sequence (`inorder_node`). -/
def inorder : BNode α → List α
  | .nil => []
  | .node d l r => l.inorder ++ d :: r.inorder

/-- Recursive post-order visitation sequence (`postorder_node`). -/
def postorder : BNode α → List α
  | .nil => []
  | .node d l r => l.postorder ++ r.postorder ++ [d]

end BNode

/-- Direction of one descent step from a node to a child. -/
inductive Dir where
  | L : Dir
  | R : Dir
deriving DecidableEq, Repr

/-- A node inside a tree is identified by the path from the root to it. -/
abbrev Path := List Dir

namespace BNode

variable {α : Type}

/-- Resolve a path to the subtree rooted at the node it denotes
(`none` when the path walks off the tree). -/
def sub? : BNode α → Path → Option (BNode α)
  | t, [] => some t
  | .nil, _ :: _ => none
  | .node _ l _, Dir.L :: p => l.sub? p
  | .node _ _ r, Dir.R :: p => r.sub? p

/-- Replace the subtree at a path (identity when the path walks off the
tree). -/
def setSub : BNode α → Path → BNode α → BNode α
  | _, [], s => s
  | .nil, _ :: _, _ => .nil
  | .node d l r, Dir.L :: p, s => .node d (l.setSub p s) r
  | .node d l r, Dir.R :: p, s => .node d l (r.setSub p s)

end BNode

/-- The `2 ^ 64` modulus of `size_t` arithmetic. -/
def szMod : Nat := 2 ^ 64

/-- The C `size ++`. -/
def szSucc (s : Nat) : Nat := (s + 1) % szMod

/-- The C `size --` (wraps at 0, as unsigned arithmetic does). -/
def szPred (s : Nat) : Nat := (s + (szMod - 1)) % szMod

/-- The C `size += k`. -/
def szAdd (s k : Nat) : Nat := (s + k) % szMod

/-- The `struct ds_btree` container: a root pointer and a `size_t` count. -/
structure Btree (α : Type) where
  root : BNode α
  size : Nat
deriving DecidableEq, Repr

/-- The C `ds_btree_create` (allocation failure not modelled). -/
def ds_btree_create {α : Type} : Btree α := ⟨.nil, 0⟩

/-- The C `ds_btree_size`. -/
def ds_btree_size {α : Type} (tree : Option (Btree α)) : Nat :=
  match tree with
  | none => 0
  | some t => t.size

/-- The C `ds_btree_node_create`: `NULL` for a `NULL` payload, otherwise a
fresh leaf node holding the payload. -/
def ds_btree_node_create {α : Type} (data : Option α) : BNode α :=
  match data with
  | none => .nil
  | some d => .node d .nil .nil

/-- The C `ds_btree_set_root`. -/
def ds_btree_set_root {α : Type} (tree : Option (Btree α)) (node : BNode α) :
    DsStatus × Option (Btree α) :=
  match tree with
  | none => (DS_ERR_NULL, none)
  | some t =>
    match node with
    | .nil => (DS_ERR_ARG, some t)
    | .node d l r =>
      match t.root with
      | .node _ _ _ => (DS_ERR_EXIST, some t)
      | .nil => (DS_OK, some ⟨.node d l r, szSucc t.size⟩)

/-- The C `ds_btree_root`. -/
def ds_btree_root {α : Type} (tree : Option (Btree α)) : BNode α :=
  match tree with
  | none => .nil
  | some t => t.root

/-- The C `ds_btree_attach_node_left`: link `node` as the left child of the
node at `parent`, `size ++`.  The C code dereferences `parent` blindly; a
path that does not resolve inside the tree models a pointer outside the
tree (contract violation) and is mapped to an argument failure. -/
def ds_btree_attach_node_left {α : Type} (tree : Option (Btree α))
    (parent : Option Path) (node : BNode α) : DsStatus × Option (Btree α) :=
  match tree with
  | none => (DS_ERR_NULL, none)
  | some t =>
    match parent, node with
    | none, _ => (DS_ERR_ARG, some t)
    | some _, .nil => (DS_ERR_ARG, some t)
    | some p, .node d l r =>
      match t.root.sub? p with
      | some (.node _ (.node _ _ _) _) => (DS_ERR_EXIST, some t)
      | some (.node pd .nil pr) =>
        (DS_OK, some ⟨t.root.setSub p (.node pd (.node d l r) pr), szSucc t.size⟩)
      | _ => (DS_ERR_ARG, some t)

/-- The C `ds_btree_attach_node_right` (mirror image of the left variant). -/
def ds_btree_attach_node_right {α : Type} (tree : Option (Btree α))
    (parent : Option Path) (node : BNode α) : DsStatus × Option (Btree α) :=
  match tree with
  | none => (DS_ERR_NULL, none)
  | some t =>
    match parent, node with
    | none, _ => (DS_ERR_ARG, some t)
    | some _, .nil => (DS_ERR_ARG, some t)
    | some p, .node d l r =>
      match t.root.sub? p with
      | some (.node _ _ (.node _ _ _)) => (DS_ERR_EXIST, some t)
      | some (.node pd pl .nil) =>
        (DS_OK, some ⟨t.root.setSub p (.node pd pl (.node d l r)), szSucc t.size⟩)
      | _ => (DS_ERR_ARG, some t)

/-- The C `ds_btree_attach_tree_left`: graft the whole `subtree` into the
left slot of the node at `parent`; the result triple is
(status, updated `tree`, updated `subtree`). -/
def ds_btree_attach_tree_left {α : Type} (tree : Option (Btree α))
    (parent : Option Path) (subtree : Option (Btree α)) :
    DsStatus × Option (Btree α) × Option (Btree α) :=
  match tree with
  | none => (DS_ERR_NULL, none, subtree)
  | some t =>
    match parent, subtree with
    | none, _ => (DS_ERR_ARG, some t, subtree)
    | some _, none => (DS_ERR_ARG, some t, none)
    | some p, some sub =>
      match sub.root with
      | .nil => (DS_OK, some t, some sub)
      | .node sd sl sr =>
        match t.root.sub? p with
        | some (.node _ (.node _ _ _) _) => (DS_ERR_EXIST, some t, some sub)
        | some (.node pd .nil pr) =>
          (DS_OK,
           some ⟨t.root.setSub p (.node pd (.node sd sl sr) pr), szAdd t.size sub.size⟩,
           some ⟨.nil, 0⟩)
        | _ => (DS_ERR_ARG, some t, some sub)

/-- The C `ds_btree_attach_tree_right` (mirror image of the left variant). -/
def ds_btree_attach_tree_right {α : Type} (tree : Option (Btree α))
    (parent : Option Path) (subtree : Option (Btree α)) :
    DsStatus × Option (Btree α) × Option (Btree α) :=
  match tree with
  | none => (DS_ERR_NULL, none, subtree)
  | some t =>
    match parent, subtree with
    | none, _ => (DS_ERR_ARG, some t, subtree)
    | some _, none => (DS_ERR_ARG, some t, none)
    | some p, some sub =>
      match sub.root with
      | .nil => (DS_OK, some t, some sub)
      | .node sd sl sr =>
        match t.root.sub? p with
        | some (.node _ _ (.node _ _ _)) => (DS_ERR_EXIST, some t, some sub)
        | some (.node pd pl .nil) =>
          (DS_OK,
           some ⟨t.root.setSub p (.node pd pl (.node sd sl sr)), szAdd t.size sub.size⟩,
           some ⟨.nil, 0⟩)
        | _ => (DS_ERR_ARG, some t, some sub)

/-- The C `ds_btree_detach_left`: returns the (possibly `NULL`) former left
child of the node at `parent` together with the updated tree.  The C code
sets `parent->left = NULL` and does `size --` unconditionally once `tree`
and `parent` are non-`NULL`. -/
def ds_btree_detach_left {α : Type} (tree : Option (Btree α))
    (parent : Option Path) : BNode α × Option (Btree α) :=
  match tree with
  | none => (.nil, none)
  | some t =>
    match parent with
    | none => (.nil, some t)
    | some p =>
      match t.root.sub? p with
      | some (.node pd pl pr) =>
        (pl, some ⟨t.root.setSub p (.node pd .nil pr), szPred t.size⟩)
      | _ => (.nil, some t)

/-- The C `ds_btree_detach_right` (mirror image of the left variant). -/
def ds_btree_detach_right {α : Type} (tree : Option (Btree α))
    (parent : Option Path) : BNode α × Option (Btree α) :=
  match tree with
  | none => (.nil, none)
  | some t =>
    match parent with
    | none => (.nil, some t)
    | some p =>
      match t.root.sub? p with
      | some (.node pd pl pr) =>
        (pr, some ⟨t.root.setSub p (.node pd pl .nil), szPred t.size⟩)
      | _ => (.nil, some t)

/-- The C `ds_btree_traverse_preorder` (recursive form); the visitor is
modelled by the returned visitation list. -/
def ds_btree_traverse_preorder {α : Type} (tree : Option (Btree α)) : List α :=
  match tree with
  | none => []
  | some t =>
    match t.root with
    | .nil => []
    | .node d l r => BNode.preorder (.node d l r)

/-- The C `ds_btree_traverse_inorder` (recursive form). -/
def ds_btree_traverse_inorder {α : Type} (tree : Option (Btree α)) : List α :=
  match tree with
  | none => []
  | some t =>
    match t.root with
    | .nil => []
    | .node d l r => BNode.inorder (.node d l r)

/-- The C `ds_btree_traverse_postorder` (recursive form). -/
def ds_btree_traverse_postorder {α : Type} (tree : Option (Btree α)) : List α :=
  match tree with
  | none => []
  | some t =>
    match t.root with
    | .nil => []
    | .node d l r => BNode.postorder (.node d l r)

/-- Total node count of a stack of subtrees (termination measure). -/
def stackCount {α : Type} (st : List (BNode α)) : Nat :=
  (st.map BNode.count).sum

/-- Loop body of `ds_btree_traverse_preorder_iterative`: visit `curr`, push
`curr->right` (when present) onto the explicit stack, step to `curr->left`
or pop.  When `curr->left` is `NULL` and a right child was just pushed, the
pop retrieves that same right child (LIFO), so push-then-pop cancels. -/
def preItLoop {α : Type} : BNode α → List (BNode α) → List α
  | .nil, _ => []
  | .node d l r, st =>
    match r with
    | .node dr lr rr =>
      match l with
      | .node dl ll rl => d :: preItLoop (.node dl ll rl) (.node dr lr rr :: st)
      | .nil => d :: preItLoop (.node dr lr rr) st
    | .nil =>
      match l with
      | .node dl ll rl => d :: preItLoop (.node dl ll rl) st
      | .nil =>
        match st with
        | s :: rest => d :: preItLoop s rest
        | [] => [d]
termination_by t st => t.count + stackCount st
decreasing_by
  all_goals simp [stackCount, BNode.count]
  all_goals omega

/-- The C `ds_btree_traverse_preorder_iterative`. -/
def ds_btree_traverse_preorder_iterative {α : Type} (tree : Option (Btree α)) :
    List α :=
  match tree with
  | none => []
  | some t =>
    match t.root with
    | .nil => []
    | .node d l r => preItLoop (.node d l r) []

/-- Weight of one stack entry of the iterative in-order loop (termination
measure: visiting the entry and its right subtree remains to be done). -/
def inEntryW {α : Type} : BNode α → Nat
  | .nil => 1
  | .node _ _ r => 2 * r.count + 1

/-- Total weight of the iterative in-order stack. -/
def inStackW {α : Type} (st : List (BNode α)) : Nat :=
  (st.map inEntryW).sum

/-- Loop body of `ds_btree_traverse_inorder_iterative`.  Each outer C
iteration pushes `curr`; when `curr->left` is `NULL` the push is at once
undone by the pop, the node is visited and the loop steps to its right
child; the inner `while (!curr)` pop-visit-right loop is the two `.nil`
cases.  The stack only ever holds nodes pushed as `curr`, hence non-`NULL`;
the `.nil`-entry case is unreachable and skips. -/
def inItLoop {α : Type} : BNode α → List (BNode α) → List α
  | .node d (.node dl ll rl) r, st =>
    inItLoop (.node dl ll rl) (.node d (.node dl ll rl) r :: st)
  | .node d .nil r, st => d :: inItLoop r st
  | .nil, [] => []
  | .nil, .node d _ r :: st => d :: inItLoop r st
  | .nil, .nil :: st => inItLoop .nil st
termination_by t st => 2 * t.count + inStackW st
decreasing_by
  all_goals simp [inStackW, inEntryW, BNode.count]
  all_goals omega

/-- The C `ds_btree_traverse_inorder_iterative`. -/
def ds_btree_traverse_inorder_iterative {α : Type} (tree : Option (Btree α)) :
    List α :=
  match tree with
  | none => []
  | some t =>
    match t.root with
    | .nil => []
    | .node d l r => inItLoop (.node d l r) []

/-- The three traversal states of an iterative post-order stack frame
(`btree_post_state_t`). -/
inductive PostState where
  | enter
  | leftDone
  | done
deriving DecidableEq, Repr

/-- An iterative post-order stack frame (`btree_post_frame_t`). -/
structure PostFrame (α : Type) where
  node : BNode α
  state : PostState
deriving DecidableEq, Repr

/-- Weight of one post-order frame (termination measure). -/
def postFrameW {α : Type} : PostFrame α → Nat
  | ⟨.nil, .enter⟩ => 3
  | ⟨.node _ l r, .enter⟩ => 4 * (1 + l.count + r.count) + 1
  | ⟨.nil, .leftDone⟩ => 2
  | ⟨.node _ _ r, .leftDone⟩ => 4 * r.count + 3
  | ⟨_, .done⟩ => 1

/-- Total weight of the iterative post-order stack. -/
def postStackW {α : Type} (st : List (PostFrame α)) : Nat :=
  (st.map postFrameW).sum

/-- Loop body of `ds_btree_traverse_postorder_iterative`: the top frame is
examined; `enter` marks itself `leftDone` and pushes the left child (when
present) as a fresh `enter` frame; `leftDone` marks itself `done` and
pushes the right child; `done` visits the node and pops.  Frames always
hold non-`NULL` nodes in real executions; the `.nil` cases are unreachable
and visit nothing. -/
def postItLoop {α : Type} : List (PostFrame α) → List α
  | [] => []
  | ⟨.node d (.node dl ll rl) r, .enter⟩ :: st =>
    postItLoop (⟨.node dl ll rl, .enter⟩ :: ⟨.node d (.node dl ll rl) r, .leftDone⟩ :: st)
  | ⟨.node d .nil r, .enter⟩ :: st =>
    postItLoop (⟨.node d .nil r, .leftDone⟩ :: st)
  | ⟨.nil, .enter⟩ :: st => postItLoop (⟨.nil, .leftDone⟩ :: st)
  | ⟨.node d l (.node dr lr rr), .leftDone⟩ :: st =>
    postItLoop (⟨.node dr lr rr, .enter⟩ :: ⟨.node d l (.node dr lr rr), .done⟩ :: st)
  | ⟨.node d l .nil, .leftDone⟩ :: st =>
    postItLoop (⟨.node d l .nil, .done⟩ :: st)
  | ⟨.nil, .leftDone⟩ :: st => postItLoop (⟨.nil, .done⟩ :: st)
  | ⟨.node d _ _, .done⟩ :: st => d :: postItLoop st
  | ⟨.nil, .done⟩ :: st => postItLoop st
termination_by st => postStackW st
decreasing_by
  all_goals simp [postStackW, postFrameW, BNode.count]
  all_goals omega

/-- The C `ds_btree_traverse_postorder_iterative`: start from a single
`enter` frame for the root. -/
def ds_btree_traverse_postorder_iterative {α : Type} (tree : Option (Btree α)) :
    List α :=
  match tree with
  | none => []
  | some t =>
    match t.root with
    | .nil => []
    | .node d l r => postItLoop [⟨.node d l r, .enter⟩]

/-- Loop body of `ds_btree_traverse_levelorder`: FIFO queue of pending
nodes; visit the front, enqueue existing children.  The queue never holds
`NULL` in C; the `.nil` case is unreachable and skips. -/
def levelLoop {α : Type} : List (BNode α) → List α
  | [] => []
  | .nil :: q => levelLoop q
  | .node d .nil .nil :: q => d :: levelLoop q
  | .node d .nil (.node dr lr rr) :: q => d :: levelLoop (q ++ [BNode.node dr lr rr])
  | .node d (.node dl ll rl) .nil :: q => d :: levelLoop (q ++ [BNode.node dl ll rl])
  | .node d (.node dl ll rl) (.node dr lr rr) :: q =>
    d :: levelLoop ((q ++ [BNode.node dl ll rl]) ++ [BNode.node dr lr rr])
termination_by q => (stackCount q, q.length)
decreasing_by
  all_goals simp [stackCount, BNode.count, Prod.lex_iff]
  all_goals omega

/-- The C `ds_btree_traverse_levelorder`. -/
def ds_btree_traverse_levelorder {α : Type} (tree : Option (Btree α)) :
    List α :=
  match tree with
  | none => []
  | some t =>
    match t.root with
    | .nil => []
    | .node d l r => levelLoop [.node d l r]

/-- Collection loop of `ds_btree_destroy` (also `ds_bst_destroy`): a
right-preferring descent that pushes encountered left children onto the
traversal stack and every visited node onto the store stack.  The value
returned is the store-stack content bottom-to-top, i.e. the payloads in
push order; the freeing phase pops it, so destructors run on its reverse.
`curr` is never `NULL` (the loop guard only matters on entry, and `curr`
is only reassigned to existing children or popped non-`NULL` entries); the
`.nil` case is unreachable and stops. -/
def destroyLoop {α : Type} : BNode α → List (BNode α) → List α
  | .nil, _ => []
  | .node d l r, trav =>
    match l with
    | .node dl ll rl =>
      match r with
      | .node dr lr rr => d :: destroyLoop (.node dr lr rr) (.node dl ll rl :: trav)
      | .nil => d :: destroyLoop (.node dl ll rl) trav
    | .nil =>
      match r with
      | .node dr lr rr => d :: destroyLoop (.node dr lr rr) trav
      | .nil =>
        match trav with
        | s :: rest => d :: destroyLoop s rest
        | [] => [d]
termination_by t trav => t.count + stackCount trav
decreasing_by
  all_goals simp [stackCount, BNode.count]
  all_goals omega

/-- The C `ds_btree_destroy`: the returned list is the sequence of payloads
the destructor (when supplied) is invoked on, in invocation order (the
reverse of the store-stack push order). -/
def ds_btree_destroy {α : Type} (tree : Option (Btree α)) : List α :=
  match tree with
  | none => []
  | some t =>
    match t.root with
    | .nil => []
    | .node d l r => (destroyLoop (.node d l r) []).reverse

/-- The C `ds_bst_destroy` runs the identical dual-stack collection loop on
the BST root, so it shares `destroyLoop`. -/
def bstDestroyVisits {α : Type} (root : BNode α) : List α :=
  match root with
  | .nil => []
  | .node d l r => (destroyLoop (.node d l r) []).reverse

/-- Annotate every node with its path from the root.  In the C heap each
node is a distinct allocation, so pointer equality is equality of tree
positions; the annotation makes that identity available to the model. -/
def annotate {α : Type} : BNode α → Path → BNode (Path × α)
  | .nil, _ => .nil
  | .node d l r, p =>
    .node (p, d) (annotate l (p ++ [Dir.L])) (annotate r (p ++ [Dir.R]))

/-- The pointer identity of an annotated node (`none` for `NULL`). -/
def idOf {α : Type} : BNode (Path × α) → Option Path
  | .nil => none
  | .node (p, _) _ _ => some p

/-- Loop body of `ds_btree_clear` (single stack plus `last_visited`),
stepped with explicit fuel because termination of the raw loop rests on
the pointer-identity invariants of a real execution.  One unit of fuel is
one examination of the state: either one step of the descend-left inner
`while`, or one right-descent, or one pop-and-free.  The C comparison
`last_visited != peek->right` is pointer identity, modelled as equality of
the annotated positions.  A `NULL` entry below the stack top never occurs
in C; that case stops.  `none` means the fuel ran out. -/
def clearLoopF {α : Type} :
    Nat → BNode (Path × α) → List (BNode (Path × α)) → Option Path →
    Option (List α)
  | 0, _, _, _ => none
  | fuel + 1, .node pd l r, stack, last =>
    clearLoopF fuel l (.node pd l r :: stack) last
  | _ + 1, .nil, [], _ => some []
  | fuel + 1, .nil, peek :: rest, last =>
    match peek with
    | .nil => some []
    | .node (p, d) _ pr =>
      match pr with
      | .node (q, e) a b =>
        if last = some q then
          (clearLoopF fuel .nil rest (some p)).map (d :: ·)
        else
          clearLoopF fuel (.node (q, e) a b) (peek :: rest) last
      | .nil => (clearLoopF fuel .nil rest (some p)).map (d :: ·)

/-- Number of loop iterations `ds_btree_clear` takes to fully process one
subtree: push-descend into it, its left subtree, one right-descent when a
right child exists, its right subtree, one pop-and-free. -/
def clearSteps {α : Type} : BNode α → Nat
  | .nil => 0
  | .node _ l r =>
    2 + clearSteps l + (match r with
                        | .nil => 0
                        | .node dr lr rr => 1 + clearSteps (BNode.node dr lr rr))

/-- The C `ds_btree_clear`: the first component is the sequence of payloads
the destructor (when supplied) is invoked on, in invocation order; the
second is the surviving tree object.  With a `NULL` tree nothing happens;
with a `NULL` root the function returns before touching `size`.  The fuel
`clearSteps + 1` is exactly enough (final empty-stack check included), as
proved below; the fallback branch is unreachable. -/
def ds_btree_clear {α : Type} (tree : Option (Btree α)) :
    List α × Option (Btree α) :=
  match tree with
  | none => ([], none)
  | some t =>
    match t.root with
    | .nil => ([], some t)
    | .node d l r =>
      match clearLoopF (clearSteps (BNode.node d l r) + 1)
          (annotate (BNode.node d l r) []) [] none with
      | some out => (out, some ⟨.nil, 0⟩)
      | none => ([], some t)

/-- The `struct ds_bst` container: root pointer, `size_t` count and the
comparator fixed at creation. -/
structure Bst (α : Type) where
  root : BNode α
  size : Nat
  compare : α → α → Int

/-- The C `ds_bst_create`: `NULL` without a comparator, otherwise an empty
tree holding it. -/
def ds_bst_create {α : Type} (compare : Option (α → α → Int)) :
    Option (Bst α) :=
  match compare with
  | none => none
  | some cmp => some ⟨.nil, 0, cmp⟩

/-- The C `ds_bst_size`. -/
def ds_bst_size {α : Type} (bst : Option (Bst α)) : Nat :=
  match bst with
  | none => 0
  | some b => b.size

/-- Descent of `ds_bst_insert`: go left on `compare < 0`, right on `> 0`,
report a duplicate (`none`) on `0`; insert a fresh leaf in the empty slot
reached.  The separate empty-tree branch of the C code produces the same
root. -/
def bstInsertGo {α : Type} (cmp : α → α → Int) (data : α) :
    BNode α → Option (BNode α)
  | .nil => some (.node data .nil .nil)
  | .node x l r =>
    if cmp data x < 0 then
      (bstInsertGo cmp data l).map (fun l2 => .node x l2 r)
    else if 0 < cmp data x then
      (bstInsertGo cmp data r).map (fun r2 => .node x l r2)
    else
      none

/-- The C `ds_bst_insert`. -/
def ds_bst_insert {α : Type} (bst : Option (Bst α)) (data : Option α) :
    DsStatus × Option (Bst α) :=
  match bst with
  | none => (DS_ERR_NULL, none)
  | some b =>
    match data with
    | none => (DS_ERR_ARG, some b)
    | some d =>
      match bstInsertGo b.compare d b.root with
      | none => (DS_ERR_EXIST, some b)
      | some r2 => (DS_OK, some ⟨r2, szSucc b.size, b.compare⟩)

/-- In-order predecessor extraction of `ds_bst_remove` case 4, on a node
`(d, l, r)`: descend right while a right child exists; the rightmost node
is detached and its left child reattached in its place (`*pred_link =
pred->left`).  Returns the detached payload and the remaining subtree. -/
def bstRemoveMax {α : Type} : α → BNode α → BNode α → α × BNode α
  | d, l, .nil => (d, l)
  | d, l, .node rd rl rr =>
    let p := bstRemoveMax rd rl rr
    (p.1, .node d l p.2)

/-- The four structural removal cases of `ds_bst_remove` (what replaces the
removed node in its parent slot): leaf — nothing; one child — that child;
two children — the in-order predecessor of the left subtree, inheriting
the left remainder and the original right subtree. -/
def removeSplice {α : Type} : BNode α → BNode α → BNode α
  | .nil, .nil => .nil
  | .node ld ll lr, .nil => .node ld ll lr
  | .nil, .node rd rl rr => .node rd rl rr
  | .node ld ll lr, .node rd rl rr =>
    let q := bstRemoveMax ld ll lr
    .node q.1 q.2 (.node rd rl rr)

/-- Descent and four-case deletion of `ds_bst_remove`: locate the matching
node (`none` when the key is absent), then replace it by `removeSplice` of
its children. -/
def bstRemoveGo {α : Type} (cmp : α → α → Int) (key : α) :
    BNode α → Option (α × BNode α)
  | .nil => none
  | .node d l r =>
    if cmp key d < 0 then
      (bstRemoveGo cmp key l).map (fun q => (q.1, .node d q.2 r))
    else if 0 < cmp key d then
      (bstRemoveGo cmp key r).map (fun q => (q.1, .node d l q.2))
    else
      some (d, removeSplice l r)

/-- The C `ds_bst_remove`: the third component is the payload handed to the
destructor (when one is supplied).  The check order is `NULL` container,
then empty tree, then `NULL` key. -/
def ds_bst_remove {α : Type} (bst : Option (Bst α)) (key : Option α) :
    DsStatus × Option (Bst α) × Option α :=
  match bst with
  | none => (DS_ERR_NULL, none, none)
  | some b =>
    match b.root with
    | .nil => (DS_ERR_NOT_FOUND, some b, none)
    | .node d0 l0 r0 =>
      match key with
      | none => (DS_ERR_ARG, some b, none)
      | some k =>
        match bstRemoveGo b.compare k (.node d0 l0 r0) with
        | none => (DS_ERR_NOT_FOUND, some b, none)
        | some q => (DS_OK, some ⟨q.2, szPred b.size, b.compare⟩, some q.1)

/-- Path taken by the comparator-guided descent of `ds_bst_remove` (and
`ds_bst_search`): left on negative, right on positive, stop on zero;
`none` when the descent falls off the tree (key absent). -/
def bstFindPath {α : Type} (cmp : α → α → Int) (key : α) :
    BNode α → Option Path
  | .nil => none
  | .node d l r =>
    if cmp key d < 0 then
      (bstFindPath cmp key l).map (Dir.L :: ·)
    else if 0 < cmp key d then
      (bstFindPath cmp key r).map (Dir.R :: ·)
    else
      some []

/-- Path from a node to its rightmost descendant (the descent
`while (pred->right)` of removal case 4). -/
def rightSpine {α : Type} : BNode α → Path
  | .nil => []
  | .node _ _ .nil => []
  | .node _ _ (.node rd rl rr) => Dir.R :: rightSpine (BNode.node rd rl rr)

/-- The C `ds_bst_traverse_inorder` (recursive, left-visit-right). -/
def ds_bst_traverse_inorder {α : Type} (bst : Option (Bst α)) : List α :=
  match bst with
  | none => []
  | some b => b.root.inorder

/-- One insert or remove request of a BST usage sequence. -/
inductive BstOp (α : Type) where
  | ins (data : α)
  | rem (key : α)

/-- Apply one operation through the public API, keeping the container the
call leaves behind (failed calls leave it unchanged). -/
def applyOp {α : Type} (b : Bst α) : BstOp α → Bst α
  | .ins a =>
    match (ds_bst_insert (some b) (some a)).2 with
    | some b2 => b2
    | none => b
  | .rem k =>
    match (ds_bst_remove (some b) (some k)).2.1 with
    | some b2 => b2
    | none => b

/-- Run a whole operation sequence against a freshly created BST. -/
def applyOps {α : Type} (cmp : α → α → Int) (ops : List (BstOp α)) : Bst α :=
  ops.foldl applyOp ⟨.nil, 0, cmp⟩

/-! Theorems. -/

/-- The fixed sample tree of the spec, built through the public API:
root 1, node 2 = left of 1 (with left 4, right 5), node 3 = right of 1
(with right 6). -/
def sampleTree : Btree Nat :=
  let t1 := (ds_btree_set_root (some ds_btree_create) (ds_btree_node_create (some 1))).2
  let t2 := (ds_btree_attach_node_left t1 (some []) (ds_btree_node_create (some 2))).2
  let t3 := (ds_btree_attach_node_right t2 (some []) (ds_btree_node_create (some 3))).2
  let t4 := (ds_btree_attach_node_left t3 (some [Dir.L]) (ds_btree_node_create (some 4))).2
  let t5 := (ds_btree_attach_node_right t4 (some [Dir.L]) (ds_btree_node_create (some 5))).2
  let t6 := (ds_btree_attach_node_right t5 (some [Dir.R]) (ds_btree_node_create (some 6))).2
  match t6 with
  | some t => t
  | none => ⟨.nil, 0⟩

/-- Claim C7: on the fixed tree (root 1; 2 = left of 1 with children 4, 5;
3 = right of 1 with right child 6) preorder visits [1,2,4,5,3,6], inorder
[4,2,5,1,3,6], postorder [4,5,2,6,3,1] and levelorder [1,2,3,4,5,6]. -/
theorem claim_C7_fixed_tree_traversals :
    ds_btree_traverse_preorder (some sampleTree) = [1, 2, 4, 5, 3, 6] ∧
    ds_btree_traverse_inorder (some sampleTree) = [4, 2, 5, 1, 3, 6] ∧
    ds_btree_traverse_postorder (some sampleTree) = [4, 5, 2, 6, 3, 1] ∧
    ds_btree_traverse_levelorder (some sampleTree) = [1, 2, 3, 4, 5, 6] := by
  refine ⟨rfl, rfl, rfl, ?_⟩
  have hs : sampleTree =
      ⟨.node 1 (.node 2 (.node 4 .nil .nil) (.node 5 .nil .nil))
              (.node 3 .nil (.node 6 .nil .nil)), 6⟩ := rfl
  rw [hs]
  simp [ds_btree_traverse_levelorder, levelLoop]

/-- Claim C6: `ds_bst_remove` fails `DS_ERR_NULL` on an absent BST;
on an existing but empty BST it fails `DS_ERR_NOT_FOUND` whatever the key
(even a `NULL` one); only with a non-empty tree does a `NULL` key fail
`DS_ERR_ARG`.  In each case the container is untouched and no destructor
runs. -/
theorem claim_C6_remove_error_precedence {α : Type} :
    (∀ key : Option α, ds_bst_remove none key = (DS_ERR_NULL, none, none)) ∧
    (∀ (b : Bst α) (key : Option α), b.root = .nil →
      ds_bst_remove (some b) key = (DS_ERR_NOT_FOUND, some b, none)) ∧
    (∀ b : Bst α, b.root ≠ .nil →
      ds_bst_remove (some b) none = (DS_ERR_ARG, some b, none)) := by
  refine ⟨fun key => rfl, fun b key hroot => ?_, fun b hroot => ?_⟩
  · simp only [ds_bst_remove, hroot]
  · rcases hb : b.root with _ | ⟨d, l, r⟩
    · exact absurd hb hroot
    · simp only [ds_bst_remove, hb]

/-- Claim C6 witness at concrete inputs. -/
theorem claim_C6_remove_error_precedence_witness :
    ds_bst_remove (α := Nat) none (some 5) = (DS_ERR_NULL, none, none) ∧
    ds_bst_remove (some ⟨.nil, 0, fun a b : Nat => (a : Int) - b⟩) none
      = (DS_ERR_NOT_FOUND, some ⟨.nil, 0, fun a b : Nat => (a : Int) - b⟩, none) ∧
    ds_bst_remove (some ⟨.node 1 .nil .nil, 1, fun a b : Nat => (a : Int) - b⟩) none
      = (DS_ERR_ARG, some ⟨.node 1 .nil .nil, 1, fun a b : Nat => (a : Int) - b⟩, none) := by
  refine ⟨?_, ?_, ?_⟩
  · exact claim_C6_remove_error_precedence.1 (some 5)
  · exact claim_C6_remove_error_precedence.2.1
      ⟨.nil, 0, fun a b : Nat => (a : Int) - b⟩ none rfl
  · exact claim_C6_remove_error_precedence.2.2
      ⟨.node 1 .nil .nil, 1, fun a b : Nat => (a : Int) - b⟩
      (fun h => BNode.noConfusion h)

/-- Claim C10: when the parent's left (resp. right) child slot is empty,
`ds_btree_detach_left` (resp. `_right`) returns the `NULL` node yet still
decrements the count: the new count is `(size + 2^64 - 1) % 2^64`, which is
`size - 1` for a representable positive size and wraps to `2^64 - 1` when
the count was 0. -/
theorem claim_C10_detach_empty_slot_decrements {α : Type} :
    (∀ (t : Btree α) (p : Path) (pd : α) (pr : BNode α),
      t.root.sub? p = some (.node pd .nil pr) →
      (ds_btree_detach_left (some t) (some p)).1 = .nil ∧
      (ds_btree_detach_left (some t) (some p)).2 =
        some ⟨t.root.setSub p (.node pd .nil pr), (t.size + (2 ^ 64 - 1)) % 2 ^ 64⟩ ∧
      (t.size = 0 →
        ds_btree_size (ds_btree_detach_left (some t) (some p)).2 = 2 ^ 64 - 1) ∧
      (0 < t.size → t.size < 2 ^ 64 →
        ds_btree_size (ds_btree_detach_left (some t) (some p)).2 = t.size - 1)) ∧
    (∀ (t : Btree α) (p : Path) (pd : α) (pl : BNode α),
      t.root.sub? p = some (.node pd pl .nil) →
      (ds_btree_detach_right (some t) (some p)).1 = .nil ∧
      (ds_btree_detach_right (some t) (some p)).2 =
        some ⟨t.root.setSub p (.node pd pl .nil), (t.size + (2 ^ 64 - 1)) % 2 ^ 64⟩ ∧
      (t.size = 0 →
        ds_btree_size (ds_btree_detach_right (some t) (some p)).2 = 2 ^ 64 - 1) ∧
      (0 < t.size → t.size < 2 ^ 64 →
        ds_btree_size (ds_btree_detach_right (some t) (some p)).2 = t.size - 1)) := by
  constructor
  · intro t p pd pr hp
    refine ⟨?_, ?_, fun h0 => ?_, fun h1 h2 => ?_⟩
    · simp [ds_btree_detach_left, hp]
    · simp [ds_btree_detach_left, hp, szPred, szMod]
    · simp [ds_btree_detach_left, hp, ds_btree_size, szPred, szMod, h0]
    · simp only [ds_btree_detach_left, hp, ds_btree_size, szPred, szMod]
      omega
  · intro t p pd pl hp
    refine ⟨?_, ?_, fun h0 => ?_, fun h1 h2 => ?_⟩
    · simp [ds_btree_detach_right, hp]
    · simp [ds_btree_detach_right, hp, szPred, szMod]
    · simp [ds_btree_detach_right, hp, ds_btree_size, szPred, szMod, h0]
    · simp only [ds_btree_detach_right, hp, ds_btree_size, szPred, szMod]
      omega

/-- Claim C10 witness: detaching the absent left child of the root of a
single-node tree with count 0 returns `NULL` and wraps the count. -/
theorem claim_C10_detach_empty_slot_decrements_witness :
    (ds_btree_detach_left (some ⟨.node 7 .nil .nil, 0⟩) (some ([] : Path))).1
      = (.nil : BNode Nat) ∧
    ds_btree_size
      (ds_btree_detach_left (some (⟨.node 7 .nil .nil, 0⟩ : Btree Nat))
        (some ([] : Path))).2 = 2 ^ 64 - 1 := by
  have h := (claim_C10_detach_empty_slot_decrements (α := Nat)).1
    ⟨.node 7 .nil .nil, 0⟩ [] 7 .nil rfl
  exact ⟨h.1, h.2.2.1 rfl⟩

/-- Claim C9 counterexample: `ds_btree_detach_left` on a parent whose left
slot is empty finds no child to return (it returns `NULL`), yet it mutates
the container: the count of a one-node tree drops from 1 to 0.  This
refutes "no partial mutation on any failure path, including detach
operations that find no child to return". -/
theorem claim_C9_counterexample :
    (ds_btree_detach_left (some (⟨.node 1 .nil .nil, 1⟩ : Btree Nat))
      (some ([] : Path))).1 = .nil ∧
    (ds_btree_detach_left (some (⟨.node 1 .nil .nil, 1⟩ : Btree Nat))
      (some ([] : Path))).2 ≠ some ⟨.node 1 .nil .nil, 1⟩ ∧
    ds_btree_size (ds_btree_detach_left
      (some (⟨.node 1 .nil .nil, 1⟩ : Btree Nat)) (some ([] : Path))).2 = 0 := by
  refine ⟨rfl, ?_, ?_⟩
  · intro h
    simp only [ds_btree_detach_left, BNode.sub?] at h
    have h3 := congrArg Btree.size (Option.some_inj.mp h)
    simp only [szPred, szMod] at h3
    omega
  · simp only [ds_btree_detach_left, BNode.sub?, ds_btree_size]
    simp [szPred, szMod]

/-- Claim C9 (amended): every status-returning operation of the tree
subsystem that reports a failure leaves every container it received
exactly as it was (and a failed remove invokes no destructor); the detach
operations, however, always decrement the count once the container and
parent exist — even when the target slot is empty and they return absent. -/
theorem claim_C9_failure_leaves_state_unchanged {α : Type} :
    (∀ (t : Option (Btree α)) (n : BNode α),
      (ds_btree_set_root t n).1 ≠ DS_OK → (ds_btree_set_root t n).2 = t) ∧
    (∀ (t : Option (Btree α)) (p : Option Path) (n : BNode α),
      (ds_btree_attach_node_left t p n).1 ≠ DS_OK →
      (ds_btree_attach_node_left t p n).2 = t) ∧
    (∀ (t : Option (Btree α)) (p : Option Path) (n : BNode α),
      (ds_btree_attach_node_right t p n).1 ≠ DS_OK →
      (ds_btree_attach_node_right t p n).2 = t) ∧
    (∀ (t : Option (Btree α)) (p : Option Path) (s : Option (Btree α)),
      (ds_btree_attach_tree_left t p s).1 ≠ DS_OK →
      (ds_btree_attach_tree_left t p s).2 = (t, s)) ∧
    (∀ (t : Option (Btree α)) (p : Option Path) (s : Option (Btree α)),
      (ds_btree_attach_tree_right t p s).1 ≠ DS_OK →
      (ds_btree_attach_tree_right t p s).2 = (t, s)) ∧
    (∀ (b : Option (Bst α)) (d : Option α),
      (ds_bst_insert b d).1 ≠ DS_OK → (ds_bst_insert b d).2 = b) ∧
    (∀ (b : Option (Bst α)) (k : Option α),
      (ds_bst_remove b k).1 ≠ DS_OK →
      (ds_bst_remove b k).2.1 = b ∧ (ds_bst_remove b k).2.2 = none) ∧
    (∀ (t : Btree α) (p : Path) (pd : α) (pl pr : BNode α),
      t.root.sub? p = some (.node pd pl pr) →
      (ds_btree_detach_left (some t) (some p)).2 =
        some ⟨t.root.setSub p (.node pd .nil pr), szPred t.size⟩ ∧
      (ds_btree_detach_right (some t) (some p)).2 =
        some ⟨t.root.setSub p (.node pd pl .nil), szPred t.size⟩) := by
  refine ⟨?_, ?_, ?_, ?_, ?_, ?_, ?_, ?_⟩
  · intro t n h
    rcases t with _ | t
    · rfl
    rcases n with _ | ⟨d, l, r⟩
    · rfl
    rcases ht : t.root with _ | ⟨td, tl, tr⟩ <;>
      simp only [ds_btree_set_root, ht] at h ⊢
    exact absurd rfl h
  · intro t p n h
    rcases t with _ | t
    · rfl
    rcases p with _ | p
    · rfl
    rcases n with _ | ⟨d, l, r⟩
    · rfl
    rcases hs : t.root.sub? p with _ | s
    · simp only [ds_btree_attach_node_left, hs]
    rcases s with _ | ⟨pd, pl, pr⟩
    · simp only [ds_btree_attach_node_left, hs]
    rcases pl with _ | ⟨x, y, z⟩ <;>
      simp only [ds_btree_attach_node_left, hs] at h ⊢
    exact absurd rfl h
  · intro t p n h
    rcases t with _ | t
    · rfl
    rcases p with _ | p
    · rfl
    rcases n with _ | ⟨d, l, r⟩
    · rfl
    rcases hs : t.root.sub? p with _ | s
    · simp only [ds_btree_attach_node_right, hs]
    rcases s with _ | ⟨pd, pl, pr⟩
    · simp only [ds_btree_attach_node_right, hs]
    rcases pr with _ | ⟨x, y, z⟩ <;>
      simp only [ds_btree_attach_node_right, hs] at h ⊢
    exact absurd rfl h
  · intro t p s h
    rcases t with _ | t
    · rfl
    rcases p with _ | p
    · rcases s with _ | s <;> rfl
    rcases s with _ | s
    · rfl
    rcases hsr : s.root with _ | ⟨sd, sl, sr⟩
    · simp only [ds_btree_attach_tree_left, hsr] at h
      exact absurd rfl h
    rcases hs : t.root.sub? p with _ | u
    · simp only [ds_btree_attach_tree_left, hsr, hs]
    rcases u with _ | ⟨pd, pl, pr⟩
    · simp only [ds_btree_attach_tree_left, hsr, hs]
    rcases pl with _ | ⟨x, y, z⟩ <;>
      simp only [ds_btree_attach_tree_left, hsr, hs] at h ⊢
    exact absurd rfl h
  · intro t p s h
    rcases t with _ | t
    · rfl
    rcases p with _ | p
    · rcases s with _ | s <;> rfl
    rcases s with _ | s
    · rfl
    rcases hsr : s.root with _ | ⟨sd, sl, sr⟩
    · simp only [ds_btree_attach_tree_right, hsr] at h
      exact absurd rfl h
    rcases hs : t.root.sub? p with _ | u
    · simp only [ds_btree_attach_tree_right, hsr, hs]
    rcases u with _ | ⟨pd, pl, pr⟩
    · simp only [ds_btree_attach_tree_right, hsr, hs]
    rcases pr with _ | ⟨x, y, z⟩ <;>
      simp only [ds_btree_attach_tree_right, hsr, hs] at h ⊢
    exact absurd rfl h
  · intro b d h
    rcases b with _ | b
    · rfl
    rcases d with _ | d
    · rfl
    rcases hi : bstInsertGo b.compare d b.root with _ | r2 <;>
      simp only [ds_bst_insert, hi] at h ⊢
    exact absurd rfl h
  · intro b k h
    rcases b with _ | b
    · exact ⟨rfl, rfl⟩
    rcases hr : b.root with _ | ⟨d0, l0, r0⟩
    · simp [ds_bst_remove, hr]
    rcases k with _ | k
    · simp [ds_bst_remove, hr]
    rcases hg : bstRemoveGo b.compare k (.node d0 l0 r0) with _ | q
    · simp [ds_bst_remove, hr, hg]
    · simp [ds_bst_remove, hr, hg] at h
  · intro t p pd pl pr hp
    constructor
    · simp only [ds_btree_detach_left, hp]
    · simp only [ds_btree_detach_right, hp]

/-- Claim C9 amended-theorem witness: a duplicate insert fails and leaves
the container untouched, and a detach at a valid parent decrements. -/
theorem claim_C9_failure_leaves_state_unchanged_witness :
    (ds_bst_insert
        (some (⟨.node 3 .nil .nil, 1, fun a b : Nat => (a : Int) - b⟩ : Bst Nat))
        (some 3)).2
      = some ⟨.node 3 .nil .nil, 1, fun a b : Nat => (a : Int) - b⟩ ∧
    (ds_btree_detach_right (some (⟨.node 1 .nil .nil, 1⟩ : Btree Nat))
        (some ([] : Path))).2
      = some ⟨.node 1 .nil .nil, szPred 1⟩ := by
  constructor
  · exact (claim_C9_failure_leaves_state_unchanged (α := Nat)).2.2.2.2.2.1
      (some ⟨.node 3 .nil .nil, 1, fun a b : Nat => (a : Int) - b⟩) (some 3)
      (by intro h; simp [ds_bst_insert, bstInsertGo] at h)
  · exact (((claim_C9_failure_leaves_state_unchanged (α := Nat)).2.2.2.2.2.2.2
      ⟨.node 1 .nil .nil, 1⟩ [] 1 .nil .nil rfl)).2

/-- Claim C4: grafting a non-empty source tree of size `k` into an empty
target slot succeeds, adds exactly `k` to the destination count (for
representable sizes) and empties the source (absent root, count 0);
grafting a non-empty source onto an occupied slot fails `DS_ERR_EXIST`
with both trees unchanged; grafting an empty source succeeds as a no-op.
Both the left and the right variant behave this way. -/
theorem claim_C4_attach_tree_graft {α : Type} :
    ∀ (t sub : Btree α) (p : Path) (pd : α) (pl pr : BNode α),
      t.root.sub? p = some (.node pd pl pr) →
      ((sub.root = .nil →
         ds_btree_attach_tree_left (some t) (some p) (some sub)
           = (DS_OK, some t, some sub)) ∧
       (sub.root ≠ .nil → pl ≠ .nil →
         ds_btree_attach_tree_left (some t) (some p) (some sub)
           = (DS_ERR_EXIST, some t, some sub)) ∧
       (sub.root ≠ .nil → pl = .nil → t.size + sub.size < szMod →
         ds_btree_attach_tree_left (some t) (some p) (some sub)
           = (DS_OK, some ⟨t.root.setSub p (.node pd sub.root pr),
                           t.size + sub.size⟩, some ⟨.nil, 0⟩))) ∧
      ((sub.root = .nil →
         ds_btree_attach_tree_right (some t) (some p) (some sub)
           = (DS_OK, some t, some sub)) ∧
       (sub.root ≠ .nil → pr ≠ .nil →
         ds_btree_attach_tree_right (some t) (some p) (some sub)
           = (DS_ERR_EXIST, some t, some sub)) ∧
       (sub.root ≠ .nil → pr = .nil → t.size + sub.size < szMod →
         ds_btree_attach_tree_right (some t) (some p) (some sub)
           = (DS_OK, some ⟨t.root.setSub p (.node pd pl sub.root),
                           t.size + sub.size⟩, some ⟨.nil, 0⟩))) := by
  intro t sub p pd pl pr hp
  refine ⟨⟨fun hs => ?_, fun hs hpl => ?_, fun hs hpl hb => ?_⟩,
          ⟨fun hs => ?_, fun hs hpr => ?_, fun hs hpr hb => ?_⟩⟩
  · simp [ds_btree_attach_tree_left, hs]
  · rcases hsr : sub.root with _ | ⟨sd, sl, sr⟩
    · exact absurd hsr hs
    rcases hpl2 : pl with _ | ⟨x, y, z⟩
    · exact absurd hpl2 hpl
    rw [hpl2] at hp
    simp [ds_btree_attach_tree_left, hsr, hp]
  · rcases hsr : sub.root with _ | ⟨sd, sl, sr⟩
    · exact absurd hsr hs
    rw [hpl] at hp
    simp [ds_btree_attach_tree_left, hsr, hp, szAdd, Nat.mod_eq_of_lt hb]
  · simp [ds_btree_attach_tree_right, hs]
  · rcases hsr : sub.root with _ | ⟨sd, sl, sr⟩
    · exact absurd hsr hs
    rcases hpr2 : pr with _ | ⟨x, y, z⟩
    · exact absurd hpr2 hpr
    rw [hpr2] at hp
    simp [ds_btree_attach_tree_right, hsr, hp]
  · rcases hsr : sub.root with _ | ⟨sd, sl, sr⟩
    · exact absurd hsr hs
    rw [hpr] at hp
    simp [ds_btree_attach_tree_right, hsr, hp, szAdd, Nat.mod_eq_of_lt hb]

/-- Claim C4 witness: a successful graft, a failing graft onto an occupied
slot and a no-op empty graft, at concrete trees. -/
theorem claim_C4_attach_tree_graft_witness :
    ds_btree_attach_tree_left (some (⟨.node 1 .nil .nil, 1⟩ : Btree Nat))
        (some ([] : Path)) (some ⟨.node 9 (.node 8 .nil .nil) .nil, 2⟩)
      = (DS_OK, some ⟨.node 1 (.node 9 (.node 8 .nil .nil) .nil) .nil, 3⟩,
         some ⟨.nil, 0⟩) ∧
    ds_btree_attach_tree_left
        (some (⟨.node 1 (.node 2 .nil .nil) .nil, 2⟩ : Btree Nat))
        (some ([] : Path)) (some ⟨.node 9 .nil .nil, 1⟩)
      = (DS_ERR_EXIST, some ⟨.node 1 (.node 2 .nil .nil) .nil, 2⟩,
         some ⟨.node 9 .nil .nil, 1⟩) ∧
    ds_btree_attach_tree_right (some (⟨.node 1 .nil .nil, 1⟩ : Btree Nat))
        (some ([] : Path)) (some ⟨.nil, 0⟩)
      = (DS_OK, some ⟨.node 1 .nil .nil, 1⟩, some ⟨.nil, 0⟩) := by
  refine ⟨?_, ?_, ?_⟩
  · have h := (claim_C4_attach_tree_graft (⟨.node 1 .nil .nil, 1⟩ : Btree Nat)
      ⟨.node 9 (.node 8 .nil .nil) .nil, 2⟩ [] 1 .nil .nil rfl).1.2.2
      (fun hc => BNode.noConfusion hc) rfl (by norm_num [szMod])
    simpa using h
  · exact (claim_C4_attach_tree_graft
      (⟨.node 1 (.node 2 .nil .nil) .nil, 2⟩ : Btree Nat)
      ⟨.node 9 .nil .nil, 1⟩ [] 1 (.node 2 .nil .nil) .nil rfl).1.2.1
      (fun hc => BNode.noConfusion hc) (fun hc => BNode.noConfusion hc)
  · exact (claim_C4_attach_tree_graft (⟨.node 1 .nil .nil, 1⟩ : Btree Nat)
      ⟨.nil, 0⟩ [] 1 .nil .nil rfl).2.1 rfl

/-- Invariant characterisation of the iterative pre-order loop: it emits
the pre-order of the current node followed by the pre-orders of the
stacked pending subtrees, top to bottom (the stack never holds `NULL`). -/
theorem preItLoop_spec {α : Type} :
    ∀ (t : BNode α) (st : List (BNode α)),
      (∀ s ∈ st, s ≠ .nil) → t ≠ .nil →
      preItLoop t st = t.preorder ++ (st.map BNode.preorder).join := by
  intro t st
  induction t, st using preItLoop.induct with
  | case1 st =>
    intro _ ht
    exact absurd rfl ht
  | case2 d st dr lr rr dl ll rl ih =>
    intro hst _
    simp only [preItLoop]
    rw [ih (by
      intro s hs
      rcases List.mem_cons.mp hs with h | h
      · rw [h]; exact fun hc => BNode.noConfusion hc
      · exact hst s h) (fun hc => BNode.noConfusion hc)]
    simp [BNode.preorder, List.append_assoc]
  | case3 d st dr lr rr ih =>
    intro hst _
    simp only [preItLoop]
    rw [ih hst (fun hc => BNode.noConfusion hc)]
    simp [BNode.preorder]
  | case4 d st dl ll rl ih =>
    intro hst _
    simp only [preItLoop]
    rw [ih hst (fun hc => BNode.noConfusion hc)]
    simp [BNode.preorder]
  | case5 d s rest ih =>
    intro hst _
    simp only [preItLoop]
    rw [ih (fun x hx => hst x (List.mem_cons_of_mem s hx))
      (hst s (List.mem_cons_self s rest))]
    simp [BNode.preorder]
  | case6 d =>
    intro _ _
    simp [preItLoop, BNode.preorder]

/-- What remains to be emitted for one entry of the iterative in-order
stack once it is popped: visit the node, then walk its right subtree. -/
def inRest {α : Type} : BNode α → List α
  | .nil => []
  | .node d _ r => d :: r.inorder

/-- Invariant characterisation of the iterative in-order loop. -/
theorem inItLoop_spec {α : Type} :
    ∀ (t : BNode α) (st : List (BNode α)),
      inItLoop t st = t.inorder ++ (st.map inRest).join := by
  intro t st
  induction t, st using inItLoop.induct with
  | case1 d dl ll rl r st ih =>
    rw [inItLoop, ih]
    simp [BNode.inorder, inRest, List.append_assoc]
  | case2 d r st ih =>
    rw [inItLoop, ih]
    simp [BNode.inorder]
  | case3 => rw [inItLoop]; rfl
  | case4 d l r st ih =>
    rw [inItLoop, ih]
    simp [inRest, BNode.inorder]
  | case5 st ih =>
    rw [inItLoop, ih]
    simp [inRest, BNode.inorder]

/-- What remains to be emitted for one iterative post-order frame: from
`enter` the node's whole post-order, from `leftDone` the right subtree's
post-order then the node, from `done` just the node. -/
def frameOut {α : Type} : PostFrame α → List α
  | ⟨n, .enter⟩ => n.postorder
  | ⟨.nil, .leftDone⟩ => []
  | ⟨.node d _ r, .leftDone⟩ => r.postorder ++ [d]
  | ⟨.nil, .done⟩ => []
  | ⟨.node d _ _, .done⟩ => [d]

/-- Invariant characterisation of the iterative post-order loop. -/
theorem postItLoop_spec {α : Type} :
    ∀ st : List (PostFrame α), postItLoop st = (st.map frameOut).join := by
  intro st
  induction st using postItLoop.induct with
  | case1 => rw [postItLoop]; rfl
  | case2 d dl ll rl r st ih =>
    rw [postItLoop, ih]
    simp [frameOut, BNode.postorder, List.append_assoc]
  | case3 d r st ih =>
    rw [postItLoop, ih]
    simp [frameOut, BNode.postorder]
  | case4 st ih =>
    rw [postItLoop, ih]
    simp [frameOut, BNode.postorder]
  | case5 d l dr lr rr st ih =>
    rw [postItLoop, ih]
    simp [frameOut, BNode.postorder, List.append_assoc]
  | case6 d l st ih =>
    rw [postItLoop, ih]
    simp [frameOut, BNode.postorder]
  | case7 st ih =>
    rw [postItLoop, ih]
    simp [frameOut]
  | case8 d l r st ih =>
    rw [postItLoop, ih]
    simp [frameOut]
  | case9 st ih =>
    rw [postItLoop, ih]
    simp [frameOut]

/-- Claim C3: on every tree the iterative pre-order, in-order and
post-order traversals produce exactly the visitation sequence of their
recursive counterparts. -/
theorem claim_C3_iterative_equals_recursive {α : Type} :
    ∀ tree : Option (Btree α),
      ds_btree_traverse_preorder_iterative tree = ds_btree_traverse_preorder tree ∧
      ds_btree_traverse_inorder_iterative tree = ds_btree_traverse_inorder tree ∧
      ds_btree_traverse_postorder_iterative tree = ds_btree_traverse_postorder tree := by
  intro tree
  rcases tree with _ | t
  · exact ⟨rfl, rfl, rfl⟩
  rcases hr : t.root with _ | ⟨d, l, r⟩
  · refine ⟨?_, ?_, ?_⟩ <;>
      simp [ds_btree_traverse_preorder_iterative, ds_btree_traverse_preorder,
        ds_btree_traverse_inorder_iterative, ds_btree_traverse_inorder,
        ds_btree_traverse_postorder_iterative, ds_btree_traverse_postorder, hr]
  refine ⟨?_, ?_, ?_⟩
  · simp only [ds_btree_traverse_preorder_iterative, ds_btree_traverse_preorder, hr]
    rw [preItLoop_spec _ _ (by intro s hs; cases hs) (fun hc => BNode.noConfusion hc)]
    simp
  · simp only [ds_btree_traverse_inorder_iterative, ds_btree_traverse_inorder, hr]
    rw [inItLoop_spec]
    simp
  · simp only [ds_btree_traverse_postorder_iterative, ds_btree_traverse_postorder, hr]
    rw [postItLoop_spec]
    simp [frameOut]

/-- Multiset of payloads stored in a subtree. -/
def payloads {α : Type} (t : BNode α) : Multiset α := (t.inorder : Multiset α)

/-- Coercion of a cons as a singleton-plus-rest (helper for multiset
bookkeeping). -/
theorem coe_cons_eq {α : Type} (d : α) (l : List α) :
    ((d :: l : List α) : Multiset α) = {d} + (l : Multiset α) := by
  rw [Multiset.singleton_add, Multiset.cons_coe]

/-- Payload multiset of an empty subtree. -/
theorem payloads_nil {α : Type} : payloads (.nil : BNode α) = 0 := rfl

/-- Payload multiset of a node. -/
theorem payloads_node {α : Type} (d : α) (l r : BNode α) :
    payloads (BNode.node d l r) = payloads l + ({d} + payloads r) := by
  simp only [payloads, BNode.inorder]
  rw [Multiset.singleton_add, Multiset.cons_coe, Multiset.coe_add]

/-- The destroy collection loop pushes every node of the current subtree
and of every stacked pending subtree exactly once: its output is, as a
multiset, the payloads of the current subtree plus those of the stack. -/
theorem destroyLoop_payloads {α : Type} :
    ∀ (t : BNode α) (trav : List (BNode α)), t ≠ .nil →
      (∀ s ∈ trav, s ≠ .nil) →
      ((destroyLoop t trav : List α) : Multiset α)
        = payloads t + (trav.map payloads).sum := by
  intro t trav
  induction t, trav using destroyLoop.induct with
  | case1 trav =>
    intro ht _
    exact absurd rfl ht
  | case2 d trav dl ll rl dr lr rr ih =>
    intro _ htrav
    simp only [destroyLoop, coe_cons_eq]
    rw [ih (fun hc => BNode.noConfusion hc) (by
      intro s hs
      rcases List.mem_cons.mp hs with h | h
      · rw [h]; exact fun hc => BNode.noConfusion hc
      · exact htrav s h)]
    simp only [payloads_node, payloads_nil, List.map_cons, List.sum_cons]
    abel
  | case3 d trav dl ll rl ih =>
    intro _ htrav
    simp only [destroyLoop, coe_cons_eq]
    rw [ih (fun hc => BNode.noConfusion hc) htrav]
    simp only [payloads_node, payloads_nil, List.map_cons, List.sum_cons]
    abel
  | case4 d trav dr lr rr ih =>
    intro _ htrav
    simp only [destroyLoop, coe_cons_eq]
    rw [ih (fun hc => BNode.noConfusion hc) htrav]
    simp only [payloads_node, payloads_nil, List.map_cons, List.sum_cons]
    abel
  | case5 d s rest ih =>
    intro _ htrav
    simp only [destroyLoop, coe_cons_eq]
    rw [ih (htrav s (List.mem_cons_self s rest))
      (fun x hx => htrav x (List.mem_cons_of_mem s hx))]
    simp only [payloads_node, payloads_nil, List.map_cons, List.sum_cons]
    abel
  | case6 d =>
    intro _ _
    simp only [destroyLoop, coe_cons_eq]
    simp [payloads_node, payloads_nil, payloads, BNode.inorder]

/-- Unfolding step of `clearLoopF`: descend-left push. -/
theorem clearLoopF_node {α : Type} (fuel : Nat) (pd : Path × α)
    (l r : BNode (Path × α)) (stack : List (BNode (Path × α)))
    (last : Option Path) :
    clearLoopF (fuel + 1) (.node pd l r) stack last
      = clearLoopF fuel l (.node pd l r :: stack) last := rfl

/-- Unfolding step of `clearLoopF`: empty stack terminates. -/
theorem clearLoopF_done {α : Type} (fuel : Nat) (last : Option Path) :
    clearLoopF (α := α) (fuel + 1) .nil [] last = some [] := rfl

/-- Unfolding step of `clearLoopF`: the top node has no right child, so it
is popped and freed. -/
theorem clearLoopF_pop_nil {α : Type} (fuel : Nat) (p : Path) (d : α)
    (pl : BNode (Path × α)) (rest : List (BNode (Path × α)))
    (last : Option Path) :
    clearLoopF (fuel + 1) .nil (.node (p, d) pl .nil :: rest) last
      = (clearLoopF fuel .nil rest (some p)).map (d :: ·) := rfl

/-- Unfolding step of `clearLoopF`: the top node has a not-yet-processed
right child, so the loop descends into it. -/
theorem clearLoopF_right {α : Type} (fuel : Nat) (p : Path) (d : α)
    (pl : BNode (Path × α)) (q : Path) (e : α) (a b : BNode (Path × α))
    (rest : List (BNode (Path × α))) (last : Option Path)
    (h : last ≠ some q) :
    clearLoopF (fuel + 1) .nil (.node (p, d) pl (.node (q, e) a b) :: rest) last
      = clearLoopF fuel (.node (q, e) a b)
          (.node (p, d) pl (.node (q, e) a b) :: rest) last := by
  simp only [clearLoopF]
  rw [if_neg h]

/-- Unfolding step of `clearLoopF`: the top node's right child was the node
processed last, so the top is popped and freed. -/
theorem clearLoopF_pop_done {α : Type} (fuel : Nat) (p : Path) (d : α)
    (pl : BNode (Path × α)) (q : Path) (e : α) (a b : BNode (Path × α))
    (rest : List (BNode (Path × α))) :
    clearLoopF (fuel + 1) .nil (.node (p, d) pl (.node (q, e) a b) :: rest)
        (some q)
      = (clearLoopF fuel .nil rest (some p)).map (d :: ·) := by
  simp only [clearLoopF]
  simp

/-- Positions inside different child subtrees are distinct: a path through
the left child never equals a path through the right child. -/
theorem pathL_ne_pathR_ext (base q : Path) :
    base ++ [Dir.L] ≠ base ++ (Dir.R :: q) := by
  intro h
  have h2 := List.append_cancel_left h
  simp at h2

/-- Processing one whole subtree with the clear loop: starting at the
annotated subtree with any stack below it and any `last_visited` that does
not point into the subtree, the loop emits the subtree's post-order and
then continues from the empty-descent state with `last_visited` set to the
subtree root, having consumed exactly `clearSteps` fuel. -/
theorem clearLoopF_run {α : Type} :
    ∀ (t : BNode α) (base : Path) (stack : List (BNode (Path × α)))
      (last : Option Path) (fuel : Nat),
      t ≠ .nil →
      (∀ q : Path, last ≠ some (base ++ q)) →
      clearLoopF (clearSteps t + fuel) (annotate t base) stack last
        = (clearLoopF fuel .nil stack (some base)).map
            (fun rest => t.postorder ++ rest) := by
  intro t
  induction t with
  | nil =>
    intro base stack last fuel ht _
    exact absurd rfl ht
  | node d l r ihl ihr =>
    intro base stack last fuel _ hlast
    rcases r with _ | ⟨rd, rl, rr⟩
    · -- no right child
      rcases l with _ | ⟨ld, ll, lr⟩
      · -- leaf
        have e1 : clearSteps (BNode.node d .nil (.nil : BNode α)) + fuel
            = (fuel + 1) + 1 := by
          simp only [clearSteps]
          omega
        rw [e1]
        rw [show annotate (BNode.node d .nil .nil) base
            = .node (base, d) .nil .nil from rfl]
        rw [clearLoopF_node, clearLoopF_pop_nil]
        rcases h : clearLoopF fuel .nil stack (some base) with _ | v <;>
          simp [BNode.postorder]
      · -- left child only
        have e1 : clearSteps (BNode.node d (BNode.node ld ll lr) (.nil : BNode α)) + fuel
            = (clearSteps (BNode.node ld ll lr) + (1 + fuel)) + 1 := by
          simp only [clearSteps]
          omega
        rw [e1]
        rw [show annotate (BNode.node d (BNode.node ld ll lr) .nil) base
            = .node (base, d) (annotate (BNode.node ld ll lr) (base ++ [Dir.L])) .nil
            from rfl]
        rw [clearLoopF_node]
        rw [ihl (base ++ [Dir.L]) _ last (1 + fuel)
          (fun hc => BNode.noConfusion hc)
          (by
            intro q hq
            exact hlast ([Dir.L] ++ q) (by rw [List.append_assoc] at hq; exact hq))]
        rw [show 1 + fuel = fuel + 1 from by omega]
        rw [clearLoopF_pop_nil]
        rcases h : clearLoopF fuel .nil stack (some base) with _ | v <;>
          simp [h, BNode.postorder]
    · -- right child present
      rcases l with _ | ⟨ld, ll, lr⟩
      · -- right child only
        have e1 : clearSteps (BNode.node d .nil (BNode.node rd rl rr)) + fuel
            = ((clearSteps (BNode.node rd rl rr) + (1 + fuel)) + 1) + 1 := by
          simp only [clearSteps]
          omega
        rw [e1]
        rw [show annotate (BNode.node d .nil (BNode.node rd rl rr)) base
            = .node (base, d) .nil (annotate (BNode.node rd rl rr) (base ++ [Dir.R]))
            from rfl]
        rw [clearLoopF_node]
        rw [show annotate (BNode.node rd rl rr) (base ++ [Dir.R])
            = .node (base ++ [Dir.R], rd) (annotate rl (base ++ [Dir.R] ++ [Dir.L]))
                (annotate rr (base ++ [Dir.R] ++ [Dir.R])) from rfl]
        rw [clearLoopF_right _ _ _ _ _ _ _ _ _ _ (hlast [Dir.R])]
        rw [show BNode.node (base ++ [Dir.R], rd)
              (annotate rl (base ++ [Dir.R] ++ [Dir.L]))
              (annotate rr (base ++ [Dir.R] ++ [Dir.R]))
            = annotate (BNode.node rd rl rr) (base ++ [Dir.R]) from rfl]
        rw [ihr (base ++ [Dir.R]) _ last (1 + fuel)
          (fun hc => BNode.noConfusion hc)
          (by
            intro q hq
            exact hlast ([Dir.R] ++ q) (by rw [List.append_assoc] at hq; exact hq))]
        rw [show 1 + fuel = fuel + 1 from by omega]
        rw [show annotate (BNode.node rd rl rr) (base ++ [Dir.R])
            = .node (base ++ [Dir.R], rd) (annotate rl (base ++ [Dir.R] ++ [Dir.L]))
                (annotate rr (base ++ [Dir.R] ++ [Dir.R])) from rfl]
        rw [clearLoopF_pop_done]
        rcases h : clearLoopF fuel .nil stack (some base) with _ | v <;>
          simp [h, BNode.postorder]
      · -- two children
        have e1 : clearSteps (BNode.node d (BNode.node ld ll lr) (BNode.node rd rl rr))
              + fuel
            = (clearSteps (BNode.node ld ll lr)
                + ((clearSteps (BNode.node rd rl rr) + (1 + fuel)) + 1)) + 1 := by
          simp only [clearSteps]
          omega
        rw [e1]
        rw [show annotate (BNode.node d (BNode.node ld ll lr) (BNode.node rd rl rr)) base
            = .node (base, d) (annotate (BNode.node ld ll lr) (base ++ [Dir.L]))
                (annotate (BNode.node rd rl rr) (base ++ [Dir.R])) from rfl]
        rw [clearLoopF_node]
        rw [ihl (base ++ [Dir.L]) _ last
          ((clearSteps (BNode.node rd rl rr) + (1 + fuel)) + 1)
          (fun hc => BNode.noConfusion hc)
          (by
            intro q hq
            exact hlast ([Dir.L] ++ q) (by rw [List.append_assoc] at hq; exact hq))]
        rw [show annotate (BNode.node rd rl rr) (base ++ [Dir.R])
            = .node (base ++ [Dir.R], rd) (annotate rl (base ++ [Dir.R] ++ [Dir.L]))
                (annotate rr (base ++ [Dir.R] ++ [Dir.R])) from rfl]
        rw [clearLoopF_right _ _ _ _ _ _ _ _ _ _
          (by
            intro hq
            exact pathL_ne_pathR_ext base [] (Option.some.inj hq))]
        rw [show BNode.node (base ++ [Dir.R], rd)
              (annotate rl (base ++ [Dir.R] ++ [Dir.L]))
              (annotate rr (base ++ [Dir.R] ++ [Dir.R]))
            = annotate (BNode.node rd rl rr) (base ++ [Dir.R]) from rfl]
        rw [ihr (base ++ [Dir.R]) _ (some (base ++ [Dir.L])) (1 + fuel)
          (fun hc => BNode.noConfusion hc)
          (by
            intro q hq
            have h2 := Option.some.inj hq
            rw [List.append_assoc] at h2
            exact pathL_ne_pathR_ext base q h2)]
        rw [show 1 + fuel = fuel + 1 from by omega]
        rw [show annotate (BNode.node rd rl rr) (base ++ [Dir.R])
            = .node (base ++ [Dir.R], rd) (annotate rl (base ++ [Dir.R] ++ [Dir.L]))
                (annotate rr (base ++ [Dir.R] ++ [Dir.R])) from rfl]
        rw [clearLoopF_pop_done]
        rcases h : clearLoopF fuel .nil stack (some base) with _ | v <;>
          simp [h, BNode.postorder, List.append_assoc]

/-- Post-order visits the same payload multiset as in-order. -/
theorem payloads_postorder {α : Type} :
    ∀ t : BNode α, ((t.postorder : List α) : Multiset α) = payloads t := by
  intro t
  induction t with
  | nil => rfl
  | node d l r ihl ihr =>
    simp only [BNode.postorder, payloads_node, ← Multiset.coe_add, ← ihl, ← ihr,
      coe_cons_eq]
    rw [show (([] : List α) : Multiset α) = 0 from rfl]
    abel

/-- Claim C8 (with the bookkeeping proviso that an empty-rooted tree has
count 0, as every tree maintained through the documented API does):
`ds_btree_destroy` and `ds_btree_clear` hand the destructor each stored
payload exactly once — the invocation multiset equals the payload multiset
(for clear the order is exactly post-order) — and after `clear` the tree
object survives with an absent root and count 0. -/
theorem claim_C8_clear_destroy_destructor_once {α : Type} :
    ∀ t : Btree α, (t.root = .nil → t.size = 0) →
      ((ds_btree_destroy (some t) : List α) : Multiset α) = payloads t.root ∧
      (ds_btree_clear (some t)).1 = t.root.postorder ∧
      (((ds_btree_clear (some t)).1 : List α) : Multiset α) = payloads t.root ∧
      (ds_btree_clear (some t)).2 = some ⟨.nil, 0⟩ := by
  intro t hsz
  rcases hr : t.root with _ | ⟨d, l, r⟩
  · refine ⟨?_, ?_, ?_, ?_⟩
    · simp [ds_btree_destroy, hr, payloads, BNode.inorder]
    · simp [ds_btree_clear, hr, BNode.postorder]
    · simp [ds_btree_clear, hr, payloads, BNode.inorder]
    · rcases t with ⟨root, size⟩
      simp only at hr hsz
      subst hr
      simp [ds_btree_clear, hsz rfl]
  · have hrun := clearLoopF_run (BNode.node d l r) [] [] none 1
      (fun hc => BNode.noConfusion hc) (fun q hq => Option.noConfusion hq)
    rw [show clearLoopF 1 .nil ([] : List (BNode (Path × α))) (some [])
        = some [] from rfl] at hrun
    simp only [Option.map_some'] at hrun
    refine ⟨?_, ?_, ?_, ?_⟩
    · simp only [ds_btree_destroy, hr]
      rw [Multiset.coe_reverse]
      rw [destroyLoop_payloads (BNode.node d l r) []
        (fun hc => BNode.noConfusion hc) (fun s hs => absurd hs (List.not_mem_nil s))]
      simp
    · simp only [ds_btree_clear, hr, hrun]
      simp
    · simp only [ds_btree_clear, hr, hrun]
      simp [payloads_postorder]
    · simp only [ds_btree_clear, hr, hrun]

/-- Claim C8 witness at a concrete two-node tree. -/
theorem claim_C8_clear_destroy_destructor_once_witness :
    ((ds_btree_destroy (some (⟨.node 1 (.node 2 .nil .nil) .nil, 2⟩ : Btree Nat))
        : List Nat) : Multiset Nat)
      = payloads (.node 1 (.node 2 .nil .nil) .nil) ∧
    (ds_btree_clear (some (⟨.node 1 (.node 2 .nil .nil) .nil, 2⟩ : Btree Nat))).2
      = some ⟨.nil, 0⟩ := by
  have h := claim_C8_clear_destroy_destructor_once
    (⟨.node 1 (.node 2 .nil .nil) .nil, 2⟩ : Btree Nat)
    (fun hc => BNode.noConfusion hc)
  exact ⟨h.1, h.2.2.2⟩

/-- The BST ordering invariant of the spec: at every node, all
left-subtree payloads compare strictly less than the node's payload and
all right-subtree payloads strictly greater. -/
def IsBST {α : Type} (cmp : α → α → Int) : BNode α → Prop
  | .nil => True
  | .node d l r =>
    IsBST cmp l ∧ IsBST cmp r ∧
    (∀ y ∈ l.inorder, cmp y d < 0) ∧ (∀ y ∈ r.inorder, 0 < cmp y d)

/-- The comparator contract of the spec: a total order presented as a
three-way comparison — antisymmetric sign flip, transitivity, and
substitutivity of comparator-equal elements. -/
structure CmpOrder {α : Type} (cmp : α → α → Int) : Prop where
  asym : ∀ a b, cmp a b < 0 ↔ 0 < cmp b a
  trans : ∀ a b c, cmp a b < 0 → cmp b c < 0 → cmp a c < 0
  congr0 : ∀ a b c, cmp a b = 0 → cmp a c = cmp b c

/-- Membership in a node's in-order listing. -/
theorem mem_inorder_node {α : Type} (y d : α) (l r : BNode α) :
    y ∈ (BNode.node d l r).inorder ↔
      y ∈ l.inorder ∨ y = d ∨ y ∈ r.inorder := by
  simp [BNode.inorder]

/-- Every element of an inserted tree is the new payload or an old one. -/
theorem insertGo_mem {α : Type} (cmp : α → α → Int) (d : α) :
    ∀ (t t2 : BNode α), bstInsertGo cmp d t = some t2 →
      ∀ y ∈ t2.inorder, y = d ∨ y ∈ t.inorder := by
  intro t
  induction t with
  | nil =>
    intro t2 h y hy
    simp only [bstInsertGo] at h
    rw [← Option.some_inj.mp h] at hy
    simp only [mem_inorder_node] at hy
    rcases hy with h1 | h1 | h1
    · cases h1
    · exact Or.inl h1
    · cases h1
  | node x l r ihl ihr =>
    intro t2 h y hy
    simp only [bstInsertGo] at h
    by_cases hc : cmp d x < 0
    · rw [if_pos hc] at h
      rcases Option.map_eq_some'.mp h with ⟨l2, hl2, ht2⟩
      rw [← ht2] at hy
      rw [mem_inorder_node] at hy
      rcases hy with h1 | h1 | h1
      · rcases ihl l2 hl2 y h1 with h2 | h2
        · exact Or.inl h2
        · exact Or.inr ((mem_inorder_node y x l r).mpr (Or.inl h2))
      · exact Or.inr ((mem_inorder_node y x l r).mpr (Or.inr (Or.inl h1)))
      · exact Or.inr ((mem_inorder_node y x l r).mpr (Or.inr (Or.inr h1)))
    · rw [if_neg hc] at h
      by_cases hc2 : 0 < cmp d x
      · rw [if_pos hc2] at h
        rcases Option.map_eq_some'.mp h with ⟨r2, hr2, ht2⟩
        rw [← ht2] at hy
        rw [mem_inorder_node] at hy
        rcases hy with h1 | h1 | h1
        · exact Or.inr ((mem_inorder_node y x l r).mpr (Or.inl h1))
        · exact Or.inr ((mem_inorder_node y x l r).mpr (Or.inr (Or.inl h1)))
        · rcases ihr r2 hr2 y h1 with h2 | h2
          · exact Or.inl h2
          · exact Or.inr ((mem_inorder_node y x l r).mpr (Or.inr (Or.inr h2)))
      · rw [if_neg hc2] at h
        cases h


/-- Insertion preserves the BST invariant (no comparator axioms needed:
the descent itself witnesses the required comparisons). -/
theorem insertGo_isBST {α : Type} (cmp : α → α → Int) (d : α) :
    ∀ (t t2 : BNode α), IsBST cmp t → bstInsertGo cmp d t = some t2 →
      IsBST cmp t2 := by
  intro t
  induction t with
  | nil =>
    intro t2 _ h
    rw [← Option.some_inj.mp h]
    exact ⟨trivial, trivial, by simp [BNode.inorder], by simp [BNode.inorder]⟩
  | node x l r ihl ihr =>
    intro t2 hbst h
    simp only [bstInsertGo] at h
    by_cases hc : cmp d x < 0
    · rw [if_pos hc] at h
      rcases Option.map_eq_some'.mp h with ⟨l2, hl2, ht2⟩
      rw [← ht2]
      refine ⟨ihl l2 hbst.1 hl2, hbst.2.1, ?_, hbst.2.2.2⟩
      intro y hy
      rcases insertGo_mem cmp d l l2 hl2 y hy with h1 | h1
      · rw [h1]; exact hc
      · exact hbst.2.2.1 y h1
    · rw [if_neg hc] at h
      by_cases hc2 : 0 < cmp d x
      · rw [if_pos hc2] at h
        rcases Option.map_eq_some'.mp h with ⟨r2, hr2, ht2⟩
        rw [← ht2]
        refine ⟨hbst.1, ihr r2 hbst.2.1 hr2, hbst.2.2.1, ?_⟩
        intro y hy
        rcases insertGo_mem cmp d r r2 hr2 y hy with h1 | h1
        · rw [h1]; exact hc2
        · exact hbst.2.2.2 y h1
      · rw [if_neg hc2] at h
        cases h

/-- When a comparator-equal payload is already stored, the insertion
descent runs into it and reports a duplicate. -/
theorem insertGo_dup {α : Type} (cmp : α → α → Int) (hcmp : CmpOrder cmp) :
    ∀ t : BNode α, IsBST cmp t → ∀ d x, x ∈ t.inorder → cmp d x = 0 →
      bstInsertGo cmp d t = none := by
  intro t
  induction t with
  | nil =>
    intro _ d x hx _
    simp [BNode.inorder] at hx
  | node z l r ihl ihr =>
    intro hbst d x hx h0
    rw [mem_inorder_node] at hx
    simp only [bstInsertGo]
    by_cases hc : cmp d z < 0
    · rw [if_pos hc]
      have hxl : x ∈ l.inorder := by
        rcases hx with h1 | h1 | h1
        · exact h1
        · rw [h1] at h0
          rw [h0] at hc
          exact absurd hc (by norm_num)
        · have := hbst.2.2.2 x h1
          have h2 := hcmp.congr0 d x z h0
          rw [h2] at hc
          omega
      rw [ihl hbst.1 d x hxl h0]
      rfl
    · rw [if_neg hc]
      by_cases hc2 : 0 < cmp d z
      · rw [if_pos hc2]
        have hxr : x ∈ r.inorder := by
          rcases hx with h1 | h1 | h1
          · have := hbst.2.2.1 x h1
            have h2 := hcmp.congr0 d x z h0
            rw [h2] at hc2
            omega
          · rw [h1] at h0
            rw [h0] at hc2
            exact absurd hc2 (by norm_num)
          · exact h1
        rw [ihr hbst.2.1 d x hxr h0]
        rfl
      · rw [if_neg hc2]

/-- Claim C5: inserting a payload that compares equal to a stored one
fails `DS_ERR_EXIST` and returns the container unchanged (same root
structure, same count, no node allocated or stored, ownership not taken). -/
theorem claim_C5_duplicate_insert_rejected {α : Type} :
    ∀ b : Bst α, CmpOrder b.compare → IsBST b.compare b.root →
      ∀ d x, x ∈ b.root.inorder → b.compare d x = 0 →
      ds_bst_insert (some b) (some d) = (DS_ERR_EXIST, some b) := by
  intro b hcmp hbst d x hx h0
  simp only [ds_bst_insert]
  rw [insertGo_dup b.compare hcmp b.root hbst d x hx h0]

/-- Claim C5 witness: inserting 1 into a BST over `Int` already holding
payloads 2 and 1 is rejected and the container is returned unchanged. -/
theorem claim_C5_duplicate_insert_rejected_witness :
    ds_bst_insert
        (some (⟨.node 2 (.node 1 .nil .nil) .nil, 2, fun a b : Int => a - b⟩ : Bst Int))
        (some 1)
      = (DS_ERR_EXIST,
         some ⟨.node 2 (.node 1 .nil .nil) .nil, 2, fun a b : Int => a - b⟩) := by
  refine claim_C5_duplicate_insert_rejected _ ?_ ?_ 1 1 ?_ ?_
  · constructor
    · intro a b; dsimp only; omega
    · intro a b c; dsimp only; omega
    · intro a b c; dsimp only; omega
  · refine ⟨⟨trivial, trivial, ?_, ?_⟩, trivial, ?_, ?_⟩ <;>
      simp [BNode.inorder]
  · simp [BNode.inorder]
  · norm_num

/-- The predecessor extraction removes exactly the last in-order element:
the node's in-order listing is the remainder's listing followed by the
extracted payload. -/
theorem removeMax_inorder {α : Type} :
    ∀ (r : BNode α) (d : α) (l : BNode α),
      (BNode.node d l r).inorder
        = (bstRemoveMax d l r).2.inorder ++ [(bstRemoveMax d l r).1] := by
  intro r
  induction r with
  | nil =>
    intro d l
    simp [bstRemoveMax, BNode.inorder]
  | node rd rl rr ihl ihr =>
    intro d l
    have ih := ihr rd rl
    simp only [bstRemoveMax]
    simp only [BNode.inorder] at ih ⊢
    rw [ih]
    simp [BNode.inorder, List.append_assoc]

/-- Structural effect of a successful removal on the in-order listing: the
matched payload is deleted in place, everything else keeps its order. -/
theorem removeGo_shape {α : Type} (cmp : α → α → Int) (k : α) :
    ∀ (t : BNode α) (x : α) (t2 : BNode α),
      bstRemoveGo cmp k t = some (x, t2) →
      ∃ pre post, t.inorder = pre ++ x :: post ∧ t2.inorder = pre ++ post := by
  intro t
  induction t with
  | nil =>
    intro x t2 h
    cases h
  | node d l r ihl ihr =>
    intro x t2 h
    simp only [bstRemoveGo] at h
    by_cases hc : cmp k d < 0
    · rw [if_pos hc] at h
      rcases Option.map_eq_some'.mp h with ⟨⟨qx, qt⟩, hq, hqe⟩
      simp only [Prod.mk.injEq] at hqe
      rcases ihl qx qt hq with ⟨pre, post, hL, hL2⟩
      refine ⟨pre, post ++ d :: r.inorder, ?_, ?_⟩
      · rw [← hqe.1]
        simp only [BNode.inorder, hL]
        simp [List.append_assoc]
      · rw [← hqe.2]
        simp only [BNode.inorder, hL2]
        simp [List.append_assoc]
    · rw [if_neg hc] at h
      by_cases hc2 : 0 < cmp k d
      · rw [if_pos hc2] at h
        rcases Option.map_eq_some'.mp h with ⟨⟨qx, qt⟩, hq, hqe⟩
        simp only [Prod.mk.injEq] at hqe
        rcases ihr qx qt hq with ⟨pre, post, hR, hR2⟩
        refine ⟨l.inorder ++ d :: pre, post, ?_, ?_⟩
        · rw [← hqe.1]
          simp only [BNode.inorder, hR]
          simp [List.append_assoc]
        · rw [← hqe.2]
          simp only [BNode.inorder, hR2]
          simp [List.append_assoc]
      · rw [if_neg hc2] at h
        have hx : d = x := congrArg Prod.fst (Option.some_inj.mp h)
        have ht2 : removeSplice l r = t2 := congrArg Prod.snd (Option.some_inj.mp h)
        rcases l with _ | ⟨ld, ll, lr⟩ <;> rcases r with _ | ⟨rd, rl, rr⟩
        · refine ⟨[], [], ?_, ?_⟩
          · simp [BNode.inorder, hx]
          · rw [← ht2]
            simp [removeSplice, BNode.inorder]
        · refine ⟨[], (BNode.node rd rl rr).inorder, ?_, ?_⟩
          · simp [BNode.inorder, hx]
          · rw [← ht2]
            simp [removeSplice]
        · refine ⟨(BNode.node ld ll lr).inorder, [], ?_, ?_⟩
          · simp [BNode.inorder, hx]
          · rw [← ht2]
            simp [removeSplice]
        · refine ⟨(bstRemoveMax ld ll lr).2.inorder ++ [(bstRemoveMax ld ll lr).1],
            (BNode.node rd rl rr).inorder, ?_, ?_⟩
          · rw [← hx, ← removeMax_inorder lr ld ll]
            simp [BNode.inorder, List.append_assoc]
          · rw [← ht2]
            simp [removeSplice, BNode.inorder, List.append_assoc]

/-- Under the comparator contract, the BST invariant makes the in-order
listing pairwise strictly increasing. -/
theorem isBST_pairwise {α : Type} (cmp : α → α → Int) (hcmp : CmpOrder cmp) :
    ∀ t : BNode α, IsBST cmp t →
      List.Pairwise (fun a b => cmp a b < 0) t.inorder := by
  intro t
  induction t with
  | nil =>
    intro _
    simp [BNode.inorder]
  | node d l r ihl ihr =>
    intro hbst
    simp only [BNode.inorder]
    rw [List.pairwise_append]
    refine ⟨ihl hbst.1, ?_, ?_⟩
    · rw [List.pairwise_cons]
      refine ⟨?_, ihr hbst.2.1⟩
      intro b hb
      exact (hcmp.asym d b).mpr (hbst.2.2.2 b hb)
    · intro a ha b hb
      rcases List.mem_cons.mp hb with h1 | h1
      · rw [h1]
        exact hbst.2.2.1 a ha
      · exact hcmp.trans a d b (hbst.2.2.1 a ha)
          ((hcmp.asym d b).mpr (hbst.2.2.2 b h1))

/-- Conversely a pairwise strictly increasing in-order listing yields the
BST invariant. -/
theorem pairwise_isBST {α : Type} (cmp : α → α → Int) (hcmp : CmpOrder cmp) :
    ∀ t : BNode α,
      List.Pairwise (fun a b => cmp a b < 0) t.inorder → IsBST cmp t := by
  intro t
  induction t with
  | nil =>
    intro _
    trivial
  | node d l r ihl ihr =>
    intro hp
    simp only [BNode.inorder] at hp
    rw [List.pairwise_append] at hp
    rcases hp with ⟨hl, hdr, hcross⟩
    rw [List.pairwise_cons] at hdr
    refine ⟨ihl hl, ihr hdr.2, ?_, ?_⟩
    · intro y hy
      exact hcross y hy d (List.mem_cons_self d r.inorder)
    · intro y hy
      exact (hcmp.asym d y).mp (hdr.1 y hy)

/-- Removal preserves the BST invariant: the new in-order listing is a
sublist of the old one, and pairwise orderedness passes to sublists. -/
theorem removeGo_isBST {α : Type} (cmp : α → α → Int) (hcmp : CmpOrder cmp)
    (k : α) (t : BNode α) (x : α) (t2 : BNode α) (hbst : IsBST cmp t)
    (h : bstRemoveGo cmp k t = some (x, t2)) : IsBST cmp t2 := by
  rcases removeGo_shape cmp k t x t2 h with ⟨pre, post, h1, h2⟩
  apply pairwise_isBST cmp hcmp
  have hp := isBST_pairwise cmp hcmp t hbst
  rw [h1] at hp
  rw [h2]
  exact hp.sublist ((List.sublist_cons_self x post).append_left pre)

/-- Applying one operation through the public API preserves the stored
comparator and the BST invariant. -/
theorem applyOp_isBST {α : Type} (b : Bst α) (op : BstOp α)
    (hcmp : CmpOrder b.compare) (hbst : IsBST b.compare b.root) :
    (applyOp b op).compare = b.compare ∧
    IsBST b.compare (applyOp b op).root := by
  rcases op with a | k
  · simp only [applyOp, ds_bst_insert]
    rcases hi : bstInsertGo b.compare a b.root with _ | r2
    · exact ⟨rfl, hbst⟩
    · exact ⟨rfl, insertGo_isBST b.compare a b.root r2 hbst hi⟩
  · rcases hr : b.root with _ | ⟨d0, l0, r0⟩
    · have he : applyOp b (BstOp.rem k) = b := by
        simp only [applyOp, ds_bst_remove, hr]
      rw [he]
      exact ⟨rfl, hbst⟩
    · rcases hg : bstRemoveGo b.compare k (.node d0 l0 r0) with _ | ⟨qx, qt⟩
      · have he : applyOp b (BstOp.rem k) = b := by
          simp only [applyOp, ds_bst_remove, hr, hg]
        rw [he]
        exact ⟨rfl, hbst⟩
      · have he : applyOp b (BstOp.rem k)
            = ⟨qt, szPred b.size, b.compare⟩ := by
          simp only [applyOp, ds_bst_remove, hr, hg]
        rw [he]
        refine ⟨rfl, ?_⟩
        rw [hr] at hbst
        exact removeGo_isBST b.compare hcmp k _ qx qt hbst hg

/-- Running any operation sequence from a freshly created BST keeps the
comparator and the BST invariant. -/
theorem applyOps_isBST {α : Type} (cmp : α → α → Int) (hcmp : CmpOrder cmp) :
    ∀ (ops : List (BstOp α)) (b : Bst α),
      b.compare = cmp → IsBST cmp b.root →
      (ops.foldl applyOp b).compare = cmp ∧
      IsBST cmp (ops.foldl applyOp b).root := by
  intro ops
  induction ops with
  | nil =>
    intro b hc hbst
    exact ⟨hc, hbst⟩
  | cons op ops ih =>
    intro b hc hbst
    have h1 := applyOp_isBST b op (hc ▸ hcmp) (hc ▸ hbst)
    simp only [List.foldl_cons]
    exact ih (applyOp b op) (h1.1.trans hc) (hc ▸ h1.2)

/-- Claim C1: for every comparator satisfying the total-order contract and
every sequence of insert/remove operations applied through the public API
to a freshly created BST, the in-order traversal visits the stored
payloads in strictly increasing comparator order (pairwise, including
after two-children deletions). -/
theorem claim_C1_inorder_strictly_increasing {α : Type}
    (cmp : α → α → Int) (hcmp : CmpOrder cmp) (ops : List (BstOp α)) :
    List.Pairwise (fun a b => cmp a b < 0)
      (ds_bst_traverse_inorder (some (applyOps cmp ops))) := by
  have h := applyOps_isBST cmp hcmp ops ⟨.nil, 0, cmp⟩ rfl trivial
  simp only [ds_bst_traverse_inorder, applyOps]
  exact isBST_pairwise cmp hcmp _ h.2

/-- Claim C1 witness: a concrete operation sequence over `Int` with the
subtraction comparator, exercising a two-children deletion (removing 2
from the tree 2/(1,3)). -/
theorem claim_C1_inorder_strictly_increasing_witness :
    List.Pairwise (fun a b : Int => (fun x y : Int => x - y) a b < 0)
      (ds_bst_traverse_inorder (some (applyOps (fun x y : Int => x - y)
        [BstOp.ins 2, BstOp.ins 1, BstOp.ins 3, BstOp.rem 2, BstOp.ins 0]))) := by
  refine claim_C1_inorder_strictly_increasing (fun x y : Int => x - y) ?_ _
  constructor
  · intro a b; dsimp only; omega
  · intro a b c; dsimp only; omega
  · intro a b c; dsimp only; omega

/-- The removal descent reaches exactly the node at the found path and
splices `removeSplice` of its children into that position. -/
theorem findPath_spec {α : Type} (cmp : α → α → Int) (k : α) :
    ∀ (t : BNode α) (p : Path), bstFindPath cmp k t = some p →
      ∃ d l r, t.sub? p = some (.node d l r) ∧ cmp k d = 0 ∧
        bstRemoveGo cmp k t = some (d, t.setSub p (removeSplice l r)) := by
  intro t
  induction t with
  | nil =>
    intro p h
    cases h
  | node x l r ihl ihr =>
    intro p h
    simp only [bstFindPath] at h
    by_cases hc : cmp k x < 0
    · rw [if_pos hc] at h
      rcases Option.map_eq_some'.mp h with ⟨p2, hp2, hpe⟩
      rcases ihl p2 hp2 with ⟨d, l1, r1, hsub, h0, hrem⟩
      refine ⟨d, l1, r1, ?_, h0, ?_⟩
      · rw [← hpe]
        simpa [BNode.sub?] using hsub
      · rw [← hpe]
        simp only [bstRemoveGo]
        rw [if_pos hc, hrem]
        simp [BNode.setSub]
    · rw [if_neg hc] at h
      by_cases hc2 : 0 < cmp k x
      · rw [if_pos hc2] at h
        rcases Option.map_eq_some'.mp h with ⟨p2, hp2, hpe⟩
        rcases ihr p2 hp2 with ⟨d, l1, r1, hsub, h0, hrem⟩
        refine ⟨d, l1, r1, ?_, h0, ?_⟩
        · rw [← hpe]
          simpa [BNode.sub?] using hsub
        · rw [← hpe]
          simp only [bstRemoveGo]
          rw [if_neg hc, if_pos hc2, hrem]
          simp [BNode.setSub]
      · rw [if_neg hc2] at h
        rw [← Option.some_inj.mp h]
        refine ⟨x, l, r, rfl, by omega, ?_⟩
        simp only [bstRemoveGo]
        rw [if_neg hc, if_neg hc2]
        rfl

/-- The in-order predecessor really is the node at the end of the right
spine of the left subtree; it has no right child, and the extraction
replaces it by its own left child in that very position. -/
theorem removeMax_rightSpine {α : Type} :
    ∀ (r : BNode α) (d : α) (l : BNode α),
      ∃ ml, (BNode.node d l r).sub? (rightSpine (BNode.node d l r))
          = some (.node (bstRemoveMax d l r).1 ml .nil) ∧
        (bstRemoveMax d l r).2
          = (BNode.node d l r).setSub (rightSpine (BNode.node d l r)) ml := by
  intro r
  induction r with
  | nil =>
    intro d l
    exact ⟨l, rfl, rfl⟩
  | node rd rl rr ihl ihr =>
    intro d l
    rcases ihr rd rl with ⟨ml, h1, h2⟩
    refine ⟨ml, ?_, ?_⟩
    · simpa [rightSpine, BNode.sub?, bstRemoveMax] using h1
    · simp only [rightSpine, BNode.setSub, bstRemoveMax]
      rw [← h2]

/-- Claim C2: removing a key that matches a node with two children splices
the in-order predecessor into the removed node's slot — the predecessor is
the rightmost (last in-order) node of the left subtree, it has no right
child, its own left child takes its former place, and it inherits the
removed node's left remainder and right subtree — while the removed
payload goes to the destructor and the count drops by exactly 1. -/
theorem claim_C2_remove_two_children_predecessor {α : Type} :
    ∀ (b : Bst α) (k : α) (p : Path) (d ld rd : α) (ll lr rl rr : BNode α),
      bstFindPath b.compare k b.root = some p →
      b.root.sub? p = some (.node d (.node ld ll lr) (.node rd rl rr)) →
      0 < b.size → b.size < szMod →
      ds_bst_remove (some b) (some k)
        = (DS_OK,
           some ⟨b.root.setSub p
                  (.node (bstRemoveMax ld ll lr).1 (bstRemoveMax ld ll lr).2
                    (.node rd rl rr)),
                b.size - 1, b.compare⟩,
           some d) ∧
      (BNode.node ld ll lr).inorder
        = (bstRemoveMax ld ll lr).2.inorder ++ [(bstRemoveMax ld ll lr).1] ∧
      (∃ ml, (BNode.node ld ll lr).sub? (rightSpine (BNode.node ld ll lr))
            = some (.node (bstRemoveMax ld ll lr).1 ml .nil) ∧
        (bstRemoveMax ld ll lr).2
          = (BNode.node ld ll lr).setSub (rightSpine (BNode.node ld ll lr)) ml) := by
  intro b k p d ld rd ll lr rl rr hfind hsub hpos hlt
  rcases findPath_spec b.compare k b.root p hfind with ⟨d2, l2, r2, hsub2, h0, hrem⟩
  rw [hsub] at hsub2
  have hinj := Option.some_inj.mp hsub2
  have hd : d = d2 := by cases hinj; rfl
  have hl : (BNode.node ld ll lr : BNode α) = l2 := by cases hinj; rfl
  have hr : (BNode.node rd rl rr : BNode α) = r2 := by cases hinj; rfl
  refine ⟨?_, removeMax_inorder lr ld ll, removeMax_rightSpine lr ld ll⟩
  rcases hroot : b.root with _ | ⟨d0, l0, r0⟩
  · rw [hroot] at hfind
    cases hfind
  · rw [hroot] at hrem
    simp only [ds_bst_remove, hroot, hrem]
    rw [← hd, ← hl, ← hr] at hrem ⊢
    have hsz : szPred b.size = b.size - 1 := by
      simp only [szPred, szMod] at *
      omega
    rw [hsz, ← hroot]
    rfl

/-- Claim C2 witness: removing the root 5 of the tree 5/(2/(1,3), 8) over
`Int` splices in the predecessor 3, which inherits 2/(1,_) and 8; the
destructor receives 5 and the count drops from 5 to 4. -/
theorem claim_C2_remove_two_children_predecessor_witness :
    ds_bst_remove
        (some (⟨.node 5 (.node 2 (.node 1 .nil .nil) (.node 3 .nil .nil))
                  (.node 8 .nil .nil), 5, fun a b : Int => a - b⟩ : Bst Int))
        (some 5)
      = (DS_OK,
         some ⟨.node 3 (.node 2 (.node 1 .nil .nil) .nil) (.node 8 .nil .nil),
               4, fun a b : Int => a - b⟩,
         some 5) := by
  have h := claim_C2_remove_two_children_predecessor
    (⟨.node 5 (.node 2 (.node 1 .nil .nil) (.node 3 .nil .nil))
        (.node 8 .nil .nil), 5, fun a b : Int => a - b⟩ : Bst Int)
    5 [] 5 2 8 (.node 1 .nil .nil) (.node 3 .nil .nil) .nil .nil
    (by decide) (by decide) (by norm_num) (by norm_num [szMod])
  simpa [bstRemoveMax, BNode.setSub] using h.1

end TinyDS
